import Mathlib

/-!
# zgoberator: paginated link list reloaded from a flat file

A shallow embedding of `zhobator.go` (the version with `server.updateEntries`,
`server.paginate`, `server.handleRequest`) and the properties of its parser,
its in-place reversal and its pagination.

Conventions of the embedding

* Go `int` is the 64-bit two's-complement integer of the usual build targets:
  values are `Int`, and every `+`, `-`, `*` on values that are not bounded by
  a slice length goes through `wrapInt`.
* A Go `string` is a `List Char` (its runes).
* A run-time panic (index or slice bounds out of range) is `none`.
* The operating system is an input: what `os.Open` returned, and what the
  `bufio.Scanner` loop delivered before `scanner.Scan()` became false.
  For a file that opens and reads without error, `openFile` computes both from the
  content of the file.
-/

namespace Zgoberator

/-! ## Machine integers -/

/-- Reduction of a mathematical integer to the 64-bit two's-complement value a Go `int` holds. -/
def wrapInt (x : Int) : Int :=
  (x + 9223372036854775808) % 18446744073709551616 - 9223372036854775808

/-- Go `a + b` on `int`. -/
def addInt (a b : Int) : Int := wrapInt (a + b)

/-- Go `a - b` on `int`. -/
def subInt (a b : Int) : Int := wrapInt (a - b)

/-- Go `a * b` on `int`. -/
def mulInt (a b : Int) : Int := wrapInt (a * b)

/-- Smallest value of a Go `int`. -/
def minInt : Int := -9223372036854775808

/-- Largest value of a Go `int`. -/
def maxInt : Int := 9223372036854775807

/-- Values a Go `int` can hold. -/
def isInt (x : Int) : Prop := minInt ≤ x ∧ x ≤ maxInt

instance (x : Int) : Decidable (isInt x) :=
  inferInstanceAs (Decidable (minInt ≤ x ∧ x ≤ maxInt))

/-! ## Data model -/

/-- Go `type entry struct { URL string; Owner string }`. -/
structure entry where
  URL : List Char
  Owner : List Char
deriving DecidableEq, Repr

/-- Go `type page struct`, the context handed to the template. -/
structure page where
  Items : List entry
  Page : Int
  HasNext : Bool
  Next : Int
  HasPrev : Bool
  Prev : Int
deriving DecidableEq, Repr

/-- Go `type server struct { pageSize int; filename string; data []entry }`. -/
structure server where
  pageSize : Int
  filename : List Char
  data : List entry
deriving DecidableEq, Repr

/-! ## Pagination -/

/-- Go slice expression `data[lo:hi]`; `none` is the bounds panic.
The capacity of the slice is not modelled: `hi` beyond the length counts as out of range. -/
def sliceExpr (data : List entry) (lo hi : Int) : Option (List entry) :=
  if 0 ≤ lo ∧ lo ≤ hi ∧ hi ≤ (data.length : Int) then
    some ((data.drop lo.toNat).take (hi - lo).toNat)
  else none

/-- Source: `func (s *server) paginate(page int) []entry`. -/
def paginate (s : server) (pageNo : Int) : Option (List entry) :=
  let fromIdx := mulInt pageNo s.pageSize
  let toIdx := addInt fromIdx s.pageSize
  let toIdx := if toIdx ≥ (s.data.length : Int) then (s.data.length : Int) - 1 else toIdx
  if fromIdx < 0 ∨ fromIdx ≥ (s.data.length : Int) ∨ toIdx ≤ fromIdx then
    some []
  else
    sliceExpr s.data fromIdx toIdx

/-- What `handleRequest` sends back through the gin context. -/
inductive Response where
  | redirect (code : Nat) (location : String)
  | html (code : Nat) (name : String) (context : page)
deriving DecidableEq, Repr

/-- Source: `func (s *server) handleRequest(c *gin.Context)`, from the parsed `pageID` on. -/
def handleRequest (s : server) (pageID : Int) : Option Response :=
  match paginate s pageID with
  | none => none
  | some items =>
    if items.length = 0 then
      some (Response.redirect 307 "/404")
    else
      some (Response.html 200 "index.tmpl"
        { Items := items
          Page := pageID
          HasNext := decide ((items.length : Int) = s.pageSize)
          Next := addInt pageID 1
          HasPrev := decide (pageID > 0)
          Prev := subInt pageID 1 })

/-! ## Line parsing: `fmt.Sscanf(text, "%s %s", &row.URL, &row.Owner)` -/

/-- Table `space` of Go's `fmt` scanner: inclusive ranges of white-space runes. -/
def space : List (Nat × Nat) :=
  [(0x0009, 0x000d), (0x0020, 0x0020), (0x0085, 0x0085), (0x00a0, 0x00a0),
   (0x1680, 0x1680), (0x2000, 0x200a), (0x2028, 0x2029), (0x202f, 0x202f),
   (0x205f, 0x205f), (0x3000, 0x3000)]

/-- Loop of `fmt.isSpace` over the sorted range table. -/
def inRanges (rx : Nat) : List (Nat × Nat) → Bool
  | [] => false
  | rng :: rest =>
    if rx < rng.1 then false
    else if rx ≤ rng.2 then true
    else inRanges rx rest

/-- Go `fmt.isSpace`: the white space that delimits the operands of `%s`. -/
def isSpace (r : Char) : Bool :=
  if r.toNat ≥ 65536 then false else inRanges r.toNat space

/-- Go `fmt.notSpace`, the predicate `%s` reads a word with. -/
def notSpace (r : Char) : Bool := !isSpace r

/-- Reasons for which the scan of a line stops with a non-nil error.
The caller only tests the error against nil. -/
inductive scanError where
  | endOfInput
  | unexpectedNewline
  | expectedSpace
  | newlineInInput
deriving DecidableEq, Repr

/-- Go `(*ss).SkipSpace` of a `Sscanf` state (newlines are not space there):
returns the unread input. -/
def SkipSpace : List Char → Except scanError (List Char)
  | [] => Except.ok []
  | r :: rest =>
    if r = '\n' then Except.error scanError.unexpectedNewline
    else if isSpace r then SkipSpace rest
    else Except.ok (r :: rest)

/-- Go `(*ss).convertString` for the verb `s`: skip space, fail at end of input,
then `token(true, notSpace)`. Returns the word and the unread input. -/
def convertString (input : List Char) : Except scanError (List Char × List Char) :=
  match SkipSpace input with
  | Except.error e => Except.error e
  | Except.ok [] => Except.error scanError.endOfInput
  | Except.ok (r :: rest) =>
    match SkipSpace (r :: rest) with
    | Except.error e => Except.error e
    | Except.ok input2 => Except.ok (input2.takeWhile notSpace, input2.dropWhile notSpace)

/-- Go `(*ss).advance` on the single blank of the format `"%s %s"`: the blank matches
end of input, or at least one space, none of them a newline. -/
def advanceSpace : List Char → Except scanError (List Char)
  | [] => Except.ok []
  | r :: rest =>
    if !isSpace r then Except.error scanError.expectedSpace
    else if r = '\n' then Except.error scanError.newlineInInput
    else Except.ok (rest.dropWhile fun c => isSpace c && c != '\n')

/-- One verb `%s` of `(*ss).doScanf`: `SkipSpace`, then `scanOne` into a `*string`. -/
def scanVerbS (input : List Char) : Except scanError (List Char × List Char) :=
  match SkipSpace input with
  | Except.error e => Except.error e
  | Except.ok input1 => convertString input1

/-- Go `fmt.Sscanf(text, "%s %s", &url, &owner)`: the two words, or the error.
Input left over after the second word is not an error. -/
def Sscanf (text : List Char) : Except scanError (List Char × List Char) :=
  match scanVerbS text with
  | Except.error e => Except.error e
  | Except.ok (url, rest1) =>
    match advanceSpace rest1 with
    | Except.error e => Except.error e
    | Except.ok rest2 =>
      match scanVerbS rest2 with
      | Except.error e => Except.error e
      | Except.ok (owner, _) => Except.ok (url, owner)

/-! ## Reload -/

/-- Body of the loop `for scanner.Scan() { ... }` of `updateEntries` for one line:
the state is `(out, badLines)`. The counter is bounded by the number of lines read
and does not reach the limit of `int`. -/
def scanStep (st : List entry × Int) (text : List Char) : List entry × Int :=
  match Sscanf text with
  | Except.error _ => (st.1, st.2 + 1)
  | Except.ok (url, owner) => (st.1 ++ [{ URL := url, Owner := owner }], st.2)

/-- Go `out[i], out[opp] = out[opp], out[i]`; `none` is the index panic. -/
def swapAt (out : List entry) (i opp : Nat) : Option (List entry) :=
  match out[i]?, out[opp]? with
  | some a, some b => some ((out.set i b).set opp a)
  | _, _ => none

/-- Loop `for i := len(out)/2 - 1; i >= 0; i-- { opp := len(out) - 1 - i; swap }`.
The counter `k` is `i + 1`: the loop runs while `k > 0`, with `i = k - 1`. -/
def reverseLoop (out : List entry) : Nat → Option (List entry)
  | 0 => some out
  | k + 1 =>
    match swapAt out k (out.length - 1 - k) with
    | none => none
    | some out2 => reverseLoop out2 k

/-- What the operating system answers to `os.Open(s.filename)` and to the reads of the
scanner: either the open error, or the lines `scanner.Text()` delivered, in order, and
the error `scanner.Err()` holds when `scanner.Scan()` returns false (`none` at end of file). -/
inductive OpenResult where
  | openError (err : String)
  | opened (lines : List (List Char)) (scanErr : Option String)
deriving DecidableEq, Repr

/-- Outcome of `updateEntries`: the returned `error` (`none` is nil) and the server after
the call. -/
structure UpdateResult where
  err : Option String
  srv : server
deriving DecidableEq, Repr

/-- Source: `func (s *server) updateEntries() error`; `none` is a panic.
`scanner.Err()` is never consulted by the source, so `scanErr` is unused. -/
def updateEntries (s : server) (file : OpenResult) : Option UpdateResult :=
  match file with
  | OpenResult.openError err => some { err := some err, srv := s }
  | OpenResult.opened lines _ =>
    let st := lines.foldl scanStep ([], 0)
    match reverseLoop st.1 (st.1.length / 2) with
    | none => none
    | some out => some { err := none, srv := { s with data := out } }

/-! ## Words of a line, as the specification counts them -/

/-- Splitting of a line into its white-space-delimited words; `cur` is the word being read. -/
def fieldsAux : List Char → List Char → List (List Char)
  | [], cur => if cur = [] then [] else [cur]
  | c :: cs, cur =>
    if isSpace c then
      (if cur = [] then fieldsAux cs [] else cur :: fieldsAux cs [])
    else fieldsAux cs (cur ++ [c])

/-- The white-space-delimited tokens of a line, in order. -/
def fields (line : List Char) : List (List Char) := fieldsAux line []

/-- The entry the loop body of `updateEntries` appends for a line, if it appends one:
`row` after a `Sscanf` that returned a nil error. -/
def entryOfLine (text : List Char) : Option entry :=
  match Sscanf text with
  | Except.error _ => none
  | Except.ok (url, owner) => some { URL := url, Owner := owner }

/-! ## The page of the specification -/

/-- Reference slice, following the words of the specification: `from = index * pageSize`,
`to = min(from + pageSize, length)`, empty when `from` is negative, `from >= length` or
`to <= from`, and otherwise the entries at the positions `from, ..., to - 1`. -/
def specPage (data : List entry) (pageSize index : Int) : List entry :=
  let fromIdx := index * pageSize
  let toIdx := min (fromIdx + pageSize) (data.length : Int)
  if fromIdx < 0 ∨ fromIdx ≥ (data.length : Int) ∨ toIdx ≤ fromIdx then []
  else (data.drop fromIdx.toNat).take (toIdx - fromIdx).toNat

/-- A store of `n` distinct entries, used for the worked examples. -/
def numbered (n : Nat) : List entry :=
  (List.range n).map fun i => { URL := [Char.ofNat (97 + i)], Owner := [] }

/-- The word a verb `%s` reads and the input it leaves, when the input has no newline:
the closed form of `scanVerbS` the proofs work with. -/
def wordOf (l : List Char) : Except scanError (List Char × List Char) :=
  match l.dropWhile isSpace with
  | [] => Except.error scanError.endOfInput
  | r :: rest => Except.ok ((r :: rest).takeWhile notSpace, (r :: rest).dropWhile notSpace)

/-! ## The scanner: `bufio.NewScanner(file)` with its default buffer and `bufio.ScanLines` -/

/-- Go `bufio.MaxScanTokenSize`: the size the buffer of a default `bufio.Scanner` may grow to. -/
def MaxScanTokenSize : Nat := 64 * 1024

/-- Number of bytes of a text in the file (its UTF-8 encoding). -/
def byteLen : List Char → Nat
  | [] => 0
  | c :: cs => c.utf8Size + byteLen cs

/-- Go `bufio.dropCR`: drops one terminal carriage return. -/
def dropCR (data : List Char) : List Char :=
  if data.getLast? = some '\r' then data.dropLast else data

/-- The lines of a file content, as `bufio.ScanLines` cuts them: the text between
newlines, the newline excluded; a text after the last newline is a line when it is not
empty. `cur` is the line being read. -/
def rawLines : List Char → List Char → List (List Char)
  | [], cur => if cur = [] then [] else [cur]
  | c :: cs, cur =>
    if c = '\n' then cur :: rawLines cs []
    else rawLines cs (cur ++ [c])

/-- Run of `for scanner.Scan()` with the default buffer over the lines of a readable file:
a line is delivered, without its terminal carriage return, while it fits the buffer with its
newline (fewer than `MaxScanTokenSize` bytes); the first line that does not fit ends the
scan with `bufio.ErrTooLong`, and nothing after it is read. Returns the delivered lines and
the value of `scanner.Err()`. -/
def scanLines : List (List Char) → List (List Char) × Option String
  | [] => ([], none)
  | l :: rest =>
    if byteLen l ≥ MaxScanTokenSize then ([], some "bufio.Scanner: token too long")
    else (dropCR l :: (scanLines rest).1, (scanLines rest).2)

/-- What `updateEntries` gets from the operating system for a file that opens and whose
reads succeed, with the given content. -/
def openFile (content : List Char) : OpenResult :=
  OpenResult.opened (scanLines (rawLines content [])).1 (scanLines (rawLines content [])).2

/-- A valid line of 65538 bytes: a first word of 65536 letters, a blank, a second word. -/
def longLine : List Char := List.replicate 65536 'x' ++ [' ', '2']

/-- A file of three valid lines, the second one `longLine`. -/
def longFile : List Char :=
  "http://a 1".toList ++ '\n' :: (longLine ++ '\n' :: "http://c 3".toList)

/-! ## Arithmetic and pagination lemmas -/

theorem wrapInt_ge (x : Int) : -9223372036854775808 ≤ wrapInt x := by
  unfold wrapInt; omega

theorem wrapInt_lt (x : Int) : wrapInt x < 9223372036854775808 := by
  unfold wrapInt; omega

theorem wrapInt_of_isInt (x : Int) (h : isInt x) : wrapInt x = x := by
  unfold isInt minInt maxInt at h
  unfold wrapInt; omega

/-- `paginate` never panics: it returns the empty page on its guard, and otherwise the
elements at the positions `fromIdx, ..., toIdx - 1`, which lie inside the list. -/
theorem paginate_eq (s : server) (pageNo : Int) :
    paginate s pageNo =
      some (if mulInt pageNo s.pageSize < 0 ∨ mulInt pageNo s.pageSize ≥ (s.data.length : Int) ∨
              (if addInt (mulInt pageNo s.pageSize) s.pageSize ≥ (s.data.length : Int)
                then (s.data.length : Int) - 1
                else addInt (mulInt pageNo s.pageSize) s.pageSize) ≤ mulInt pageNo s.pageSize
            then []
            else (s.data.drop (mulInt pageNo s.pageSize).toNat).take
              ((if addInt (mulInt pageNo s.pageSize) s.pageSize ≥ (s.data.length : Int)
                then (s.data.length : Int) - 1
                else addInt (mulInt pageNo s.pageSize) s.pageSize)
                - mulInt pageNo s.pageSize).toNat) := by
  unfold paginate sliceExpr
  simp only []
  split_ifs <;> first | rfl | omega

theorem paginate_length_le (s : server) (pageNo : Int) (hps : isInt s.pageSize)
    (items : List entry) (h : paginate s pageNo = some items) (hne : items ≠ []) :
    (items.length : Int) ≤ s.pageSize := by
  rw [paginate_eq] at h
  have hf1 := wrapInt_ge (pageNo * s.pageSize)
  have hf2 := wrapInt_lt (pageNo * s.pageSize)
  unfold isInt minInt maxInt at hps
  simp only [Option.some.injEq] at h
  split_ifs at h with h1 h2 h3 <;> subst h
  all_goals first
    | exact absurd rfl hne
    | (simp only [List.length_take, List.length_drop]
       unfold addInt mulInt at *
       generalize wrapInt (pageNo * s.pageSize) = f at *
       unfold wrapInt at *
       omega)

/-- The page index `maxInt` is never shown: its page is empty for every page size. -/
theorem paginate_maxInt_empty (s : server) :
    paginate s maxInt = some [] := by
  rw [paginate_eq]
  congr 1
  rw [if_pos]
  unfold addInt mulInt maxInt wrapInt
  omega

/-- What the source computes, in the range without overflow: the reference slice of the
stored list without its last entry. -/
theorem paginate_eq_specPage_dropLast (s : server) (pageNo : Int) (h0 : 0 ≤ pageNo)
    (hps : 0 < s.pageSize) (hno : pageNo * s.pageSize + s.pageSize ≤ maxInt) :
    paginate s pageNo = some (specPage s.data.dropLast s.pageSize pageNo) := by
  have hm : 0 ≤ pageNo * s.pageSize := Int.mul_nonneg h0 (le_of_lt hps)
  have e1 : mulInt pageNo s.pageSize = pageNo * s.pageSize := by
    unfold mulInt
    apply wrapInt_of_isInt
    unfold isInt minInt maxInt at *
    omega
  have e2 : addInt (pageNo * s.pageSize) s.pageSize = pageNo * s.pageSize + s.pageSize := by
    unfold addInt
    apply wrapInt_of_isInt
    unfold isInt minInt maxInt at *
    omega
  rw [paginate_eq, e1, e2]
  unfold specPage
  simp only [List.length_dropLast]
  simp only [List.dropLast_eq_take, List.drop_take, List.take_take]
  generalize pageNo * s.pageSize = f at *
  congr 1
  split_ifs <;> first
    | rfl
    | omega
    | (congr 1; omega)

/-! ## Parser lemmas -/

theorem isSpace_newline : isSpace '\n' = true := by decide

theorem SkipSpace_eq (l : List Char) (h : '\n' ∉ l) :
    SkipSpace l = Except.ok (l.dropWhile isSpace) := by
  induction l with
  | nil => rfl
  | cons r rest ih =>
    have hr : r ≠ '\n' := fun e => h (by simp [e])
    have hrest : '\n' ∉ rest := fun e => h (List.mem_cons_of_mem _ e)
    unfold SkipSpace
    rw [if_neg hr]
    by_cases hs : isSpace r = true
    · rw [if_pos hs, ih hrest, List.dropWhile_cons_of_pos hs]
    · rw [if_neg hs, List.dropWhile_cons_of_neg hs]

theorem dropWhile_dropWhile (p : Char → Bool) (l : List Char) :
    (l.dropWhile p).dropWhile p = l.dropWhile p := by
  induction l with
  | nil => rfl
  | cons r rest ih =>
    by_cases hs : p r = true
    · rw [List.dropWhile_cons_of_pos hs, ih]
    · rw [List.dropWhile_cons_of_neg hs, List.dropWhile_cons_of_neg hs]

theorem not_mem_dropWhile (p : Char → Bool) (l : List Char) (c : Char) (h : c ∉ l) :
    c ∉ l.dropWhile p :=
  fun e => h ((List.dropWhile_suffix p).subset e)

theorem dropWhile_space_no_newline (l : List Char) (h : '\n' ∉ l) :
    (l.dropWhile fun c => isSpace c && c != '\n') = l.dropWhile isSpace := by
  induction l with
  | nil => rfl
  | cons r rest ih =>
    have hr : r ≠ '\n' := fun e => h (by simp [e])
    have hrest : '\n' ∉ rest := fun e => h (List.mem_cons_of_mem _ e)
    by_cases hs : isSpace r = true
    · rw [List.dropWhile_cons_of_pos hs, List.dropWhile_cons_of_pos (by simp [hs, hr]), ih hrest]
    · rw [List.dropWhile_cons_of_neg hs, List.dropWhile_cons_of_neg (by simp [hs])]

theorem convertString_eq (l : List Char) (h : '\n' ∉ l) : convertString l = wordOf l := by
  unfold convertString wordOf
  rw [SkipSpace_eq l h]
  cases hd : l.dropWhile isSpace with
  | nil => rfl
  | cons r rest =>
    have h2 : '\n' ∉ r :: rest := hd ▸ not_mem_dropWhile _ _ _ h
    simp only []
    rw [SkipSpace_eq _ h2, ← hd, dropWhile_dropWhile]

theorem scanVerbS_eq (l : List Char) (h : '\n' ∉ l) : scanVerbS l = wordOf l := by
  unfold scanVerbS
  rw [SkipSpace_eq l h]
  simp only []
  rw [convertString_eq _ (not_mem_dropWhile _ _ _ h)]
  unfold wordOf
  rw [dropWhile_dropWhile]

theorem fieldsAux_nil (cur : List Char) :
    fieldsAux [] cur = if cur = [] then [] else [cur] := rfl

theorem fieldsAux_cons (c : Char) (cs cur : List Char) :
    fieldsAux (c :: cs) cur =
      if isSpace c then (if cur = [] then fieldsAux cs [] else cur :: fieldsAux cs [])
      else fieldsAux cs (cur ++ [c]) := rfl

theorem fieldsAux_cur (l cur : List Char) (h : cur ≠ []) :
    fieldsAux l cur = (cur ++ l.takeWhile notSpace) :: fieldsAux (l.dropWhile notSpace) [] := by
  induction l generalizing cur with
  | nil => simp [fieldsAux_nil, h]
  | cons c cs ih =>
    by_cases hs : isSpace c = true
    · have hn : ¬ notSpace c = true := by simp [notSpace, hs]
      rw [List.takeWhile_cons_of_neg hn, List.dropWhile_cons_of_neg hn,
        fieldsAux_cons c cs cur, if_pos hs, if_neg h, fieldsAux_cons c cs [], if_pos hs, if_pos rfl]
      simp
    · have hn : notSpace c = true := by simp [notSpace, hs]
      rw [List.takeWhile_cons_of_pos hn, List.dropWhile_cons_of_pos hn,
        fieldsAux_cons c cs cur, if_neg hs, ih (cur ++ [c]) (by simp)]
      simp

theorem fields_eq (l : List Char) :
    fields l =
      match l.dropWhile isSpace with
      | [] => []
      | r :: rest => (r :: rest).takeWhile notSpace :: fields ((r :: rest).dropWhile notSpace) := by
  unfold fields
  induction l with
  | nil => simp [fieldsAux_nil]
  | cons c cs ih =>
    by_cases hs : isSpace c = true
    · rw [List.dropWhile_cons_of_pos hs, fieldsAux_cons, if_pos hs, if_pos rfl]
      exact ih
    · have hn : notSpace c = true := by simp [notSpace, hs]
      rw [List.dropWhile_cons_of_neg hs]
      simp only []
      rw [List.takeWhile_cons_of_pos hn, List.dropWhile_cons_of_pos hn,
        fieldsAux_cons, if_neg hs, fieldsAux_cur _ _ (by simp)]
      simp

theorem head_dropWhile_notSpace (l : List Char) (r : Char) (rest : List Char)
    (h : l.dropWhile notSpace = r :: rest) : isSpace r = true := by
  induction l with
  | nil => simp at h
  | cons c cs ih =>
    by_cases hn : notSpace c = true
    · rw [List.dropWhile_cons_of_pos hn] at h
      exact ih h
    · rw [List.dropWhile_cons_of_neg hn] at h
      simp only [List.cons.injEq] at h
      rw [← h.1]
      simpa [notSpace] using hn

/-- On a line without newline, `Sscanf` succeeds exactly when the line has at least two
words, and then yields the first two. -/
theorem Sscanf_eq_fields (line : List Char) (hnl : '\n' ∉ line) :
    Sscanf line =
      match fields line with
      | t1 :: t2 :: _ => Except.ok (t1, t2)
      | _ => Except.error scanError.endOfInput := by
  unfold Sscanf
  rw [scanVerbS_eq line hnl, fields_eq line]
  unfold wordOf
  cases h1 : line.dropWhile isSpace with
  | nil => rfl
  | cons r rest =>
    have hnl1 : '\n' ∉ r :: rest := h1 ▸ not_mem_dropWhile _ _ _ hnl
    simp only []
    cases h2 : (r :: rest).dropWhile notSpace with
    | nil =>
      have : fields [] = [] := rfl
      rw [this]
      rfl
    | cons r2 rest2 =>
      have hnl2 : '\n' ∉ r2 :: rest2 := h2 ▸ not_mem_dropWhile _ _ _ hnl1
      have hr2 : r2 ≠ '\n' := fun e => hnl2 (by simp [e])
      have hrest2 : '\n' ∉ rest2 := fun e => hnl2 (List.mem_cons_of_mem _ e)
      have hs2 : isSpace r2 = true := head_dropWhile_notSpace _ _ _ h2
      have hadv : advanceSpace (r2 :: rest2) = Except.ok (rest2.dropWhile isSpace) := by
        unfold advanceSpace
        simp only [hs2, Bool.not_true, if_neg hr2]
        rw [dropWhile_space_no_newline _ hrest2]
        rfl
      rw [hadv]
      simp only []
      rw [scanVerbS_eq _ (not_mem_dropWhile _ _ _ hrest2), fields_eq (r2 :: rest2),
        List.dropWhile_cons_of_pos hs2]
      unfold wordOf
      rw [dropWhile_dropWhile]
      cases h3 : rest2.dropWhile isSpace with
      | nil => rfl
      | cons r3 rest3 => rfl

/-! ## Reload lemmas -/

theorem swapAt_eq (out : List entry) (i opp : Nat) (hi : i < out.length) (ho : opp < out.length) :
    swapAt out i opp = some ((out.set i out[opp]).set opp out[i]) := by
  unfold swapAt
  rw [List.getElem?_eq_getElem hi, List.getElem?_eq_getElem ho]

/-- Invariant of the swap loop: with `k` iterations left, the run mirrors the positions
`0..k-1` and `n-k..n-1` and leaves the others in place. -/
theorem reverseLoop_spec (k : Nat) (out : List entry) (hk : 2 * k ≤ out.length) :
    ∃ r, reverseLoop out k = some r ∧ r.length = out.length ∧
      ∀ j, j < out.length →
        r[j]? = if j < k ∨ out.length - 1 - j < k then out[out.length - 1 - j]? else out[j]? := by
  induction k generalizing out with
  | zero => exact ⟨out, rfl, rfl, fun j _ => by simp⟩
  | succ k ih =>
    have hi : k < out.length := by omega
    have ho : out.length - 1 - k < out.length := by omega
    obtain ⟨r, hr, hlen, hget⟩ := ih ((out.set k out[out.length - 1 - k]).set (out.length - 1 - k) out[k])
      (by simp only [List.length_set]; omega)
    refine ⟨r, ?_, ?_, ?_⟩
    · unfold reverseLoop
      rw [swapAt_eq out k _ hi ho]
      exact hr
    · simpa using hlen
    · intro j hj
      have := hget j (by simpa using hj)
      rw [this]
      simp only [List.length_set, List.getElem?_set]
      have e1 : out[k]? = some out[k] := List.getElem?_eq_getElem hi
      have e2 : out[out.length - 1 - k]? = some out[out.length - 1 - k] := List.getElem?_eq_getElem ho
      by_cases c1 : j < k
      · have a1 : ¬ (out.length - 1 - k = out.length - 1 - j) := by omega
        have a2 : ¬ (k = out.length - 1 - j) := by omega
        simp [c1, a1, a2, Nat.lt_succ_of_lt c1]
      · by_cases c2 : out.length - 1 - j < k
        · have a1 : ¬ (out.length - 1 - k = out.length - 1 - j) := by omega
          have a2 : ¬ (k = out.length - 1 - j) := by omega
          simp [c2, a1, a2, Nat.lt_succ_of_lt c2]
        · by_cases c3 : j = k
          · subst c3
            have a1 : ¬ (out.length - 1 - j = j) := by omega
            simp [a1, e2, c2, hi]
          · by_cases c4 : j = out.length - 1 - k
            · have a3 : out.length - 1 - j = k := by omega
              have a4 : out.length - 1 - k = j := by omega
              simp [c1, c2, a3, a4, e1, hi, hj]
            · have a1 : ¬ (out.length - 1 - k = j) := by omega
              have a2 : ¬ (k = j) := by omega
              have a3 : ¬ (j < k + 1) := by omega
              have a4 : ¬ (out.length - 1 - j < k + 1) := by omega
              simp [c1, c2, a1, a2, a3, a4]

/-- The in-place swap loop of `updateEntries` returns the reversed list and never
indexes out of range. -/
theorem reverseLoop_eq_reverse (out : List entry) :
    reverseLoop out (out.length / 2) = some out.reverse := by
  obtain ⟨r, hr, hlen, hget⟩ := reverseLoop_spec (out.length / 2) out (by omega)
  rw [hr]
  congr 1
  apply List.ext_getElem?
  intro j
  by_cases hj : j < out.length
  · rw [hget j hj, List.getElem?_reverse hj]
    split_ifs with h
    · rfl
    · have : out.length - 1 - j = j := by omega
      rw [this]
  · rw [List.getElem?_eq_none (by omega), List.getElem?_eq_none (by simp; omega)]

theorem scanStep_eq (st : List entry × Int) (text : List Char) :
    scanStep st text =
      match entryOfLine text with
      | none => (st.1, st.2 + 1)
      | some e => (st.1 ++ [e], st.2) := by
  unfold scanStep entryOfLine
  cases Sscanf text with
  | error e => rfl
  | ok p => rfl

theorem foldl_scanStep_fst (lines : List (List Char)) (st : List entry × Int) :
    (lines.foldl scanStep st).1 = st.1 ++ lines.filterMap entryOfLine := by
  induction lines generalizing st with
  | nil => simp
  | cons l ls ih =>
    rw [List.foldl_cons, ih, scanStep_eq]
    cases h : entryOfLine l with
    | none => simp [List.filterMap_cons, h]
    | some e => simp [List.filterMap_cons, h]

/-- A reload whose file opens stores the reversed list of the parsed lines and returns nil,
whatever the scanner reports at the end. -/
theorem updateEntries_opened (s : server) (lines : List (List Char)) (scanErr : Option String) :
    updateEntries s (OpenResult.opened lines scanErr) =
      some { err := none, srv := { s with data := (lines.filterMap entryOfLine).reverse } } := by
  unfold updateEntries
  simp only [foldl_scanStep_fst, List.nil_append]
  rw [reverseLoop_eq_reverse]

/-- A reload whose file does not open returns the error and keeps the server as it was. -/
theorem updateEntries_openError (s : server) (err : String) :
    updateEntries s (OpenResult.openError err) = some { err := some err, srv := s } := rfl

theorem filterMap_all_some (lines : List (List Char))
    (hvalid : ∀ l, l ∈ lines → (entryOfLine l).isSome = true) :
    (lines.filterMap entryOfLine).map some = lines.map entryOfLine := by
  induction lines with
  | nil => rfl
  | cons l ls ih =>
    have h1 := hvalid l (List.mem_cons_self _ _)
    have h2 := ih (fun x hx => hvalid x (List.mem_cons_of_mem _ hx))
    obtain ⟨e, he⟩ := Option.isSome_iff_exists.mp h1
    simp [List.filterMap_cons, he, h2]

/-! ## Scanner lemmas -/

theorem rawLines_append_newline (l rest cur : List Char) (h : '\n' ∉ l) :
    rawLines (l ++ '\n' :: rest) cur = (cur ++ l) :: rawLines rest [] := by
  induction l generalizing cur with
  | nil => simp [rawLines]
  | cons c cs ih =>
    have hc : c ≠ '\n' := fun e => h (by simp [e])
    have hcs : '\n' ∉ cs := fun e => h (List.mem_cons_of_mem _ e)
    rw [List.cons_append, rawLines, if_neg hc, ih _ hcs]
    simp

theorem rawLines_no_newline (l cur : List Char) (h : '\n' ∉ l) :
    rawLines l cur = if cur ++ l = [] then [] else [cur ++ l] := by
  induction l generalizing cur with
  | nil => simp [rawLines]
  | cons c cs ih =>
    have hc : c ≠ '\n' := fun e => h (by simp [e])
    have hcs : '\n' ∉ cs := fun e => h (List.mem_cons_of_mem _ e)
    rw [rawLines, if_neg hc, ih _ hcs]
    simp

/-- No line of a file contains a newline. -/
theorem not_mem_rawLines (content cur l : List Char) (hcur : '\n' ∉ cur)
    (hl : l ∈ rawLines content cur) : '\n' ∉ l := by
  induction content generalizing cur with
  | nil =>
    rw [rawLines] at hl
    split_ifs at hl with h
    · simp at hl
    · simp only [List.mem_singleton] at hl
      rw [hl]; exact hcur
  | cons c cs ih =>
    rw [rawLines] at hl
    split_ifs at hl with h
    · rcases List.mem_cons.mp hl with e | e
      · rw [e]; exact hcur
      · exact ih [] (by simp) e
    · refine ih (cur ++ [c]) ?_ hl
      intro e
      rcases List.mem_append.mp e with e | e
      · exact hcur e
      · simp only [List.mem_singleton] at e
        exact h e.symm

theorem length_le_byteLen (l : List Char) : l.length ≤ byteLen l := by
  induction l with
  | nil => simp [byteLen]
  | cons c cs ih =>
    have := Char.utf8Size_pos c
    simp only [byteLen, List.length_cons]
    omega

theorem byteLen_append (l r : List Char) : byteLen (l ++ r) = byteLen l + byteLen r := by
  induction l with
  | nil => simp [byteLen]
  | cons c cs ih =>
    show c.utf8Size + byteLen (cs ++ r) = c.utf8Size + byteLen cs + byteLen r
    rw [ih]; omega

theorem fieldsAux_append_space (l cur : List Char) (c : Char) (hc : isSpace c = true) :
    fieldsAux (l ++ [c]) cur = fieldsAux l cur := by
  induction l generalizing cur with
  | nil =>
    rw [List.nil_append, fieldsAux_cons, if_pos hc]
    by_cases h : cur = []
    · rw [if_pos h, h]
    · rw [if_neg h, fieldsAux_nil, if_pos rfl, fieldsAux_nil, if_neg h]
  | cons a as ih =>
    rw [List.cons_append, fieldsAux_cons, fieldsAux_cons, ih, ih]

theorem fields_dropCR (l : List Char) : fields (dropCR l) = fields l := by
  unfold dropCR
  split_ifs with h
  · have e : l.dropLast ++ ['\r'] = l := List.dropLast_append_getLast? _ (by simp [h])
    unfold fields
    conv => rhs; rw [← e]
    rw [fieldsAux_append_space _ _ _ (by decide)]
  · rfl

theorem not_mem_dropCR (l : List Char) (c : Char) (h : c ∉ l) : c ∉ dropCR l := by
  unfold dropCR
  split_ifs
  · exact fun e => h ((List.dropLast_subset l) e)
  · exact h

theorem entryOfLine_dropCR (l : List Char) (h : '\n' ∉ l) :
    entryOfLine (dropCR l) = entryOfLine l := by
  unfold entryOfLine
  rw [Sscanf_eq_fields _ (not_mem_dropCR l _ h), Sscanf_eq_fields _ h, fields_dropCR]

theorem scanLines_short (ls : List (List Char))
    (h : ∀ l, l ∈ ls → byteLen l < MaxScanTokenSize) :
    scanLines ls = (ls.map dropCR, none) := by
  induction ls with
  | nil => rfl
  | cons l rest ih =>
    have h1 := h l (List.mem_cons_self _ _)
    have h2 := ih (fun x hx => h x (List.mem_cons_of_mem _ hx))
    rw [scanLines, if_neg (by omega), h2]
    rfl

theorem fieldsAux_word (w rest cur : List Char) (hw : ∀ c, c ∈ w → isSpace c = false) :
    fieldsAux (w ++ rest) cur = fieldsAux rest (cur ++ w) := by
  induction w generalizing cur with
  | nil => simp
  | cons a as ih =>
    have ha : ¬ isSpace a = true := by simp [hw a (List.mem_cons_self _ _)]
    rw [List.cons_append, fieldsAux_cons, if_neg ha,
      ih _ (fun c hc => hw c (List.mem_cons_of_mem _ hc))]
    simp

theorem not_mem_longLine : '\n' ∉ longLine := by
  unfold longLine
  intro e
  rcases List.mem_append.mp e with e | e
  · exact absurd (List.eq_of_mem_replicate e) (by decide)
  · exact absurd e (by decide)

theorem fields_word_blank (w : List Char) (hw : ∀ c, c ∈ w → isSpace c = false)
    (hne : w ≠ []) : fields (w ++ [' ', '2']) = [w, ['2']] := by
  unfold fields
  rw [fieldsAux_word _ _ _ hw, List.nil_append, fieldsAux_cons, if_pos (by decide), if_neg hne,
    fieldsAux_cons, if_neg (by decide), fieldsAux_nil, if_neg (by decide)]
  rfl

theorem longWord_ne_nil : List.replicate 65536 'x' ≠ [] := by
  intro e
  have := congrArg List.length e
  rw [List.length_replicate] at this
  exact absurd this (by decide)

theorem fields_longLine : fields longLine = [List.replicate 65536 'x', ['2']] :=
  fields_word_blank _ (fun c hc => by rw [List.eq_of_mem_replicate hc]; decide) longWord_ne_nil

theorem entryOfLine_longLine :
    entryOfLine longLine = some { URL := List.replicate 65536 'x', Owner := ['2'] } := by
  unfold entryOfLine
  rw [Sscanf_eq_fields _ not_mem_longLine, fields_longLine]

theorem byteLen_longLine : byteLen longLine ≥ MaxScanTokenSize := by
  have h := length_le_byteLen longLine
  have e : longLine.length = 65538 := by
    unfold longLine
    rw [List.length_append, List.length_replicate]
    rfl
  rw [e] at h
  unfold MaxScanTokenSize
  omega

theorem rawLines_longFile :
    rawLines longFile [] = ["http://a 1".toList, longLine, "http://c 3".toList] := by
  unfold longFile
  rw [rawLines_append_newline _ _ _ (by decide), rawLines_append_newline _ _ _ not_mem_longLine,
    rawLines_no_newline _ _ (by decide)]
  rfl

theorem scanLines_longFile :
    scanLines (rawLines longFile []) =
      (["http://a 1".toList], some "bufio.Scanner: token too long") := by
  rw [rawLines_longFile]
  have h1 : ¬ byteLen "http://a 1".toList ≥ MaxScanTokenSize := by decide
  rw [scanLines, if_neg h1, scanLines, if_pos byteLen_longLine]
  rfl

/-- On a file whose lines all fit the buffer of the scanner and are all valid, the reload
returns nil and stores the entries of the lines of the file, last line first. -/
theorem updateEntries_reverses_file (s : server) (content : List Char)
    (hshort : ∀ l, l ∈ rawLines content [] → byteLen l < MaxScanTokenSize)
    (hvalid : ∀ l, l ∈ rawLines content [] → (entryOfLine l).isSome = true) :
    ∃ data, updateEntries s (openFile content) =
        some { err := none, srv := { s with data := data } } ∧
      data.map some = ((rawLines content []).map entryOfLine).reverse ∧
      data.length = (rawLines content []).length := by
  have hnl : ∀ l, l ∈ rawLines content [] → '\n' ∉ l :=
    fun l hl => not_mem_rawLines content [] l (by simp) hl
  have hmapeq : ((rawLines content []).map dropCR).filterMap entryOfLine =
      (rawLines content []).filterMap entryOfLine := by
    rw [List.filterMap_map]
    apply List.filterMap_congr
    intro l hl
    exact entryOfLine_dropCR l (hnl l hl)
  have hsome := filterMap_all_some _ hvalid
  refine ⟨((rawLines content []).filterMap entryOfLine).reverse, ?_, ?_, ?_⟩
  · unfold openFile
    rw [scanLines_short _ hshort, updateEntries_opened, hmapeq]
  · rw [List.map_reverse, hsome]
  · have := congrArg List.length hsome
    simpa using this

/-! ## Pagination against the reference slice -/

/-- C1 (defect of the source): with 25 stored entries and pageSize 10, page 0 has its 10
entries and every page from 3 on is empty, but page 2 is cut to the 4 entries at positions
20 to 23, where the reference slice of the specification holds the 5 entries at positions
20 to 24: the clamp `to = len(s.data) - 1` drops the last stored entry. -/
theorem paginate_third_page_of_25 :
    paginate ⟨10, [], numbered 25⟩ 2 = some ((numbered 25).drop 20 |>.take 4) ∧
    (paginate ⟨10, [], numbered 25⟩ 2).map List.length = some 4 ∧
    specPage (numbered 25) 10 2 = (numbered 25).drop 20 ∧
    (specPage (numbered 25) 10 2).length = 5 ∧
    paginate ⟨10, [], numbered 25⟩ 2 ≠ some (specPage (numbered 25) 10 2) ∧
    (paginate ⟨10, [], numbered 25⟩ 0).map List.length = some 10 ∧
    paginate ⟨10, [], numbered 25⟩ 3 = some [] := by
  decide

/-- C9 (defect of the source): a store holding a single entry shows nothing. Position 0 is
stored, yet `paginate(0)` is empty for pageSize 10, so the last stored entry is not
reachable through pagination. -/
theorem paginate_single_entry_unreachable :
    (numbered 1)[0]? = some { URL := ['a'], Owner := [] } ∧
    paginate ⟨10, [], numbered 1⟩ (0 / 10) = some [] := by
  decide

/-- C10 (defect of the source): 21 stored entries with pageSize 10 are not an exact multiple,
page 1 is non-empty and full, so `handleRequest` sets `HasNext`, and yet page 2 is empty:
the entry at position 20 is the one the clamp of `paginate` drops. -/
theorem hasNext_wrong_off_boundary :
    (21 : Int) % 10 ≠ 0 ∧
    handleRequest ⟨10, [], numbered 21⟩ 1 =
      some (Response.html 200 "index.tmpl"
        { Items := (numbered 21).drop 10 |>.take 10
          Page := 1
          HasNext := true
          Next := 2
          HasPrev := true
          Prev := 0 }) ∧
    paginate ⟨10, [], numbered 21⟩ (1 + 1) = some [] := by
  decide

/-! ## The page view -/

/-- C6: for every server state and page index, `paginate` returns (no panic), the request
is redirected to `/404` exactly when the page is empty, and otherwise the template receives
Items = paginate(index), Page = index, HasNext = (len(Items) == pageSize), Next = index + 1,
HasPrev = (index > 0), Prev = index - 1, with len(Items) <= pageSize. The sums are those
of Go `int`; on a shown page `index + 1` never overflows, and `index - 1` overflows only at
the smallest `int`. -/
theorem handleRequest_page_view (s : server) (pageID : Int) (hps : isInt s.pageSize) :
    ∃ items, paginate s pageID = some items ∧
      (handleRequest s pageID = some (Response.redirect 307 "/404") ↔ items = []) ∧
      (items ≠ [] →
        handleRequest s pageID = some (Response.html 200 "index.tmpl"
          { Items := items
            Page := pageID
            HasNext := decide ((items.length : Int) = s.pageSize)
            Next := addInt pageID 1
            HasPrev := decide (pageID > 0)
            Prev := subInt pageID 1 }) ∧
        (items.length : Int) ≤ s.pageSize ∧
        (isInt pageID → addInt pageID 1 = pageID + 1) ∧
        (isInt pageID → pageID ≠ minInt → subInt pageID 1 = pageID - 1)) := by
  obtain ⟨items, hit⟩ : ∃ items, paginate s pageID = some items := ⟨_, paginate_eq s pageID⟩
  refine ⟨items, hit, ?_, ?_⟩
  · unfold handleRequest
    rw [hit]
    cases items with
    | nil => simp
    | cons a l => simp
  · intro hne
    refine ⟨?_, paginate_length_le s pageID hps items hit hne, ?_, ?_⟩
    · unfold handleRequest
      rw [hit]
      cases items with
      | nil => exact absurd rfl hne
      | cons a l => simp
    · intro hid
      have hmax : pageID ≠ maxInt := by
        intro e
        rw [e, paginate_maxInt_empty] at hit
        exact hne (Option.some.inj hit).symm
      unfold addInt
      apply wrapInt_of_isInt
      unfold isInt minInt maxInt at *
      omega
    · intro hid hmin
      unfold subInt
      apply wrapInt_of_isInt
      unfold isInt minInt maxInt at *
      omega

/-- Witness of C6: the first page of a three-entry store with pageSize 2. -/
theorem handleRequest_page_view_witness :
    isInt (server.pageSize ⟨2, [], numbered 3⟩) ∧
    ∃ items, paginate ⟨2, [], numbered 3⟩ 0 = some items ∧
      (handleRequest ⟨2, [], numbered 3⟩ 0 = some (Response.redirect 307 "/404") ↔ items = []) ∧
      (items ≠ [] →
        handleRequest ⟨2, [], numbered 3⟩ 0 = some (Response.html 200 "index.tmpl"
          { Items := items
            Page := 0
            HasNext := decide ((items.length : Int) = server.pageSize ⟨2, [], numbered 3⟩)
            Next := addInt 0 1
            HasPrev := decide ((0 : Int) > 0)
            Prev := subInt 0 1 }) ∧
        (items.length : Int) ≤ server.pageSize ⟨2, [], numbered 3⟩ ∧
        (isInt 0 → addInt 0 1 = 0 + 1) ∧
        (isInt 0 → (0 : Int) ≠ minInt → subInt 0 1 = 0 - 1)) :=
  ⟨by decide, handleRequest_page_view ⟨2, [], numbered 3⟩ 0 (by decide)⟩

/-! ## The per-line step -/

/-- C7: a line (no newline inside) whose white-space-delimited tokens are exactly `t1` and
`t2`, in that order, makes the loop body append exactly the entry with URL = t1 and
Owner = t2, and leaves the bad-line counter unchanged. -/
theorem scanStep_two_tokens (out : List entry) (badLines : Int) (line t1 t2 : List Char)
    (hnl : '\n' ∉ line) (h : fields line = [t1, t2]) :
    scanStep (out, badLines) line = (out ++ [{ URL := t1, Owner := t2 }], badLines) := by
  unfold scanStep
  rw [Sscanf_eq_fields line hnl, h]

/-- Witness of C7: the line `http://a 1`. -/
theorem scanStep_two_tokens_witness :
    '\n' ∉ "http://a 1".toList ∧
    fields "http://a 1".toList = ["http://a".toList, "1".toList] ∧
    scanStep ([], 0) "http://a 1".toList =
      ([] ++ [{ URL := "http://a".toList, Owner := "1".toList }], 0) :=
  ⟨by decide, by decide, scanStep_two_tokens [] 0 _ _ _ (by decide) (by decide)⟩

/-- C2, as stated, fails on the line `http://a 1 extra`: it has three tokens, and the loop
body appends the entry of its first two tokens and does not count a bad line. -/
theorem scanStep_three_tokens_accepted :
    (fields "http://a 1 extra".toList).length = 3 ∧
    scanStep ([], 0) "http://a 1 extra".toList =
      ([{ URL := "http://a".toList, Owner := "1".toList }], 0) ∧
    scanStep ([], 0) "http://a 1 extra".toList ≠ ([], 0 + 1) := by
  decide

/-- C2, amended: a line (no newline inside) with 0 or 1 white-space-delimited tokens makes
the loop body append nothing and increase the bad-line counter by exactly 1; a line with 3
or more tokens is accepted: the entry of its first two tokens is appended and the counter
is unchanged. -/
theorem scanStep_malformed (out : List entry) (badLines : Int) (line : List Char)
    (hnl : '\n' ∉ line) :
    ((fields line).length ≤ 1 → scanStep (out, badLines) line = (out, badLines + 1)) ∧
    (3 ≤ (fields line).length →
      ∃ t1 t2 rest, fields line = t1 :: t2 :: rest ∧
        scanStep (out, badLines) line = (out ++ [{ URL := t1, Owner := t2 }], badLines)) := by
  constructor
  · intro h
    unfold scanStep
    rw [Sscanf_eq_fields line hnl]
    cases hf : fields line with
    | nil => rfl
    | cons t1 r1 =>
      cases r1 with
      | nil => rfl
      | cons t2 r2 => rw [hf] at h; simp at h
  · intro h
    cases hf : fields line with
    | nil => rw [hf] at h; simp at h
    | cons t1 r1 =>
      cases r1 with
      | nil => rw [hf] at h; simp at h
      | cons t2 r2 =>
        refine ⟨t1, t2, r2, rfl, ?_⟩
        unfold scanStep
        rw [Sscanf_eq_fields line hnl, hf]

/-- Witness of the amended C2: the one-token line `http://a` is counted as a bad line. -/
theorem scanStep_malformed_witness :
    '\n' ∉ "http://a".toList ∧ (fields "http://a".toList).length ≤ 1 ∧
    scanStep ([], 0) "http://a".toList = ([], 0 + 1) :=
  ⟨by decide, by decide, (scanStep_malformed [] 0 "http://a".toList (by decide)).1 (by decide)⟩

/-! ## Reload -/

/-- C3 (defect of the source): a file of three valid lines whose second line is longer than
the buffer of the scanner. The scan stops at that line with `bufio.ErrTooLong`, which
`updateEntries` never looks at: it returns nil and stores the single entry of the first
line, where the claim says the stored list has the three entries, reversed. -/
theorem updateEntries_long_line_truncates :
    rawLines longFile [] = ["http://a 1".toList, longLine, "http://c 3".toList] ∧
    (["http://a 1".toList, longLine, "http://c 3".toList].map entryOfLine =
      [some ⟨"http://a".toList, "1".toList⟩, some ⟨List.replicate 65536 'x', "2".toList⟩,
       some ⟨"http://c".toList, "3".toList⟩]) ∧
    updateEntries ⟨10, [], []⟩ (openFile longFile) =
      some { err := none, srv := ⟨10, [], [⟨"http://a".toList, "1".toList⟩]⟩ } := by
  refine ⟨rawLines_longFile, ?_, ?_⟩
  · have e1 : entryOfLine "http://a 1".toList = some ⟨"http://a".toList, "1".toList⟩ := by decide
    have e3 : entryOfLine "http://c 3".toList = some ⟨"http://c".toList, "3".toList⟩ := by decide
    rw [List.map_cons, List.map_cons, List.map_cons, List.map_nil, e1, e3, entryOfLine_longLine]
    rfl
  · unfold openFile
    rw [scanLines_longFile, updateEntries_opened]
    decide

/-- C4 (defect of the source): the file opens but its content cannot be read (the scanner
stops at once with an error, as when the path names a directory). `updateEntries` returns
nil and replaces the two stored entries by the empty list, so page 0 changes from one entry
to none; `scanner.Err()` is never checked. -/
theorem updateEntries_read_error_replaces_data :
    updateEntries ⟨1, "links.txt".toList, numbered 2⟩
        (OpenResult.opened [] (some "read links.txt: is a directory")) =
      some { err := none, srv := ⟨1, "links.txt".toList, []⟩ } ∧
    paginate ⟨1, "links.txt".toList, numbered 2⟩ 0 = some [{ URL := ['a'], Owner := [] }] ∧
    paginate ⟨1, "links.txt".toList, []⟩ 0 = some [] := by
  decide

/-- C5 (defect of the source): after the three lines of the worked example are loaded with
pageSize 2, the stored list is c, b, a and page 0 is c, b as the specification says, but
page 1 is empty instead of holding the entry a: the clamp of `paginate` drops it. -/
theorem worked_example_second_page_empty :
    updateEntries ⟨2, [], []⟩
        (OpenResult.opened ["http://a 1".toList, "http://b 2".toList, "http://c 3".toList] none) =
      some { err := none,
             srv := ⟨2, [], [⟨"http://c".toList, "3".toList⟩, ⟨"http://b".toList, "2".toList⟩,
                             ⟨"http://a".toList, "1".toList⟩]⟩ } ∧
    paginate ⟨2, [], [⟨"http://c".toList, "3".toList⟩, ⟨"http://b".toList, "2".toList⟩,
                      ⟨"http://a".toList, "1".toList⟩]⟩ 0 =
      some [⟨"http://c".toList, "3".toList⟩, ⟨"http://b".toList, "2".toList⟩] ∧
    paginate ⟨2, [], [⟨"http://c".toList, "3".toList⟩, ⟨"http://b".toList, "2".toList⟩,
                      ⟨"http://a".toList, "1".toList⟩]⟩ 1 = some [] ∧
    specPage [⟨"http://c".toList, "3".toList⟩, ⟨"http://b".toList, "2".toList⟩,
              ⟨"http://a".toList, "1".toList⟩] 2 1 = [⟨"http://a".toList, "1".toList⟩] := by
  decide

end Zgoberator
